import Mathlib

/-!
Verification of the continuous-training pipeline of `assignment_4`
(`update_model.py`, `train.py`, `tune.py`) against its specification.

The pipeline's decision logic is embedded shallowly: metric values are
exact rationals, filesystem contents and model fitting are oracle
parameters, fallible steps return `Option`/`Except`.
-/

set_option linter.unusedVariables false

/-- Snapshot of one tracked gold data file, as built by `get_data_state`
(`update_model.py`): path, MD5 content hash, modification time, size. -/
structure FileInfo where
  path : String
  md5 : String
  mtime : ℚ
  size : ℕ
deriving DecidableEq, Repr

/-- The persisted data state: mapping filename to snapshot (a Python dict,
modelled as an association list with distinct keys). -/
abbrev DataState := List (String × FileInfo)

/-- Dict access `state[fname]` / `fname in state` on a `DataState`. -/
def lookupState (f : String) : DataState → Option FileInfo
  | [] => none
  | p :: rest => if p.1 = f then some p.2 else lookupState f rest

/-- `detect_new_data` (`update_model.py` lines 73-87): iterate over the
current state; a filename absent from the last state is new, one present
with a different MD5 hash is modified.  Returns (new_files, modified_files). -/
def detect_new_data (current last : DataState) : List String × List String :=
  current.foldr
    (fun p acc =>
      match lookupState p.1 last with
      | none => (p.1 :: acc.1, acc.2)
      | some prev => if prev.md5 ≠ p.2.md5 then (acc.1, p.1 :: acc.2) else acc)
    ([], [])

/-- The files that are implicitly unchanged in a detection cycle: present in
both states with equal hash (the complement classification of §4.1 of the
spec; the script materialises only the new and modified lists). -/
def unchanged_files (current last : DataState) : List String :=
  (current.filter
    (fun p =>
      match lookupState p.1 last with
      | some prev => decide (prev.md5 = p.2.md5)
      | none => false)).map Prod.fst

/-- Python's `fname.endswith(".csv")`, as a suffix test on the character
sequence. -/
def ends_with_csv (fname : String) : Bool :=
  decide (".csv".toList <:+ fname.toList)

/-- `get_data_state` (`update_model.py` lines 43-55): list the data
directory sorted by name, keep only names ending in ".csv", and snapshot
each one.  The directory listing and the filesystem metadata of each file
are oracle inputs `files` and `fs`. -/
def get_data_state (files : List String) (fs : String → FileInfo) : DataState :=
  ((files.mergeSort (fun a b => a ≤ b)).filter
      (fun f => ends_with_csv f)).map (fun f => (f, fs f))

/-- KPI metric triple (RMSE, MAE, R²), as exact rationals. -/
structure Metrics where
  rmse : ℚ
  mae : ℚ
  r2 : ℚ
deriving DecidableEq, Repr

/-- KPI thresholds from `params["kpi"]["thresholds"]`. -/
structure Thresholds where
  rmse_acceptable : ℚ
  mae_acceptable : ℚ
  r2_minimum : ℚ
deriving DecidableEq, Repr

/-- The `kpi_status` tag values. -/
inductive KpiStatus where
  | PASS
  | FAIL
deriving DecidableEq, Repr

/-- KPI gate of `train_model` (`train.py` lines 222-234) and `tune_model`
(`tune.py` lines 109-114): `status = "PASS" if (rmse_ok and r2_ok) else
"FAIL"`; `mae_ok` is computed and printed but not used in the decision. -/
def kpi_status (test : Metrics) (th : Thresholds) : KpiStatus :=
  let rmse_ok := decide (test.rmse < th.rmse_acceptable)
  let mae_ok := decide (test.mae < th.mae_acceptable)
  let r2_ok := decide (test.r2 > th.r2_minimum)
  if rmse_ok && r2_ok then .PASS else .FAIL

/-- Promotion outcomes printed by `update_pipeline`. -/
inductive Outcome where
  | PROMOTE
  | HOLD
deriving DecidableEq, Repr

/-- A run record as fetched back from the registry: its test RMSE metric
and its `kpi_status` tag. -/
structure RunRecord where
  test_rmse : ℚ
  kpi_status : KpiStatus
deriving DecidableEq, Repr

/-- Promotion decision of `update_pipeline` (`update_model.py` lines
159-174): `delta = new_rmse - old_rmse`; promote iff `delta < 0`.  The
candidate's `kpi_status` tag is available on the record but never read. -/
def decide_promotion (candidate : RunRecord) (incumbent_rmse : ℚ) : Outcome :=
  let delta := candidate.test_rmse - incumbent_rmse
  if delta < 0 then .PROMOTE else .HOLD

/-- Result of one `train_model(version)` call as observable through the
registry: the new run id, its test RMSE, and its KPI tag. -/
structure TrainResult where
  run_id : ℕ
  test_rmse : ℚ
  kpi_status : KpiStatus
deriving DecidableEq, Repr

/-- Substring test `marker in fname` (Python `in` on strings). -/
def contains_marker (fname marker : String) : Bool :=
  decide (marker.toList <:+: fname.toList)

/-- Version resolution of `update_pipeline` (`update_model.py` lines
131-143): for each changed filename, `"v1" in fname` maps it to "v1",
else `"v2" in fname` maps it to "v2", else it is silently skipped. -/
def versions_to_train (all_changed : List String) : List String :=
  all_changed.filterMap
    (fun fname =>
      if contains_marker fname "v1" then some "v1"
      else if contains_marker fname "v2" then some "v2"
      else none)

/-- The retraining loop of `update_pipeline` (lines 154-174): process the
resolved versions in order; `train_model` exiting fatally on a version
(modelled by `train v = none`) aborts the whole process there (Python
`sys.exit` / an uncaught exception), so later versions are not reached.
Returns (completed (version, run_id) pairs, recorded promotion decisions,
the version that failed, if any). -/
def process_versions (train : String → Option TrainResult)
    (incumbent : Option ℚ) :
    List String → List (String × ℕ) × List (String × Outcome) × Option String
  | [] => ([], [], none)
  | v :: rest =>
    match train v with
    | none => ([], [], some v)
    | some res =>
      let decs : List (String × Outcome) :=
        match incumbent with
        | none => []
        | some old => [(v, decide_promotion ⟨res.test_rmse, res.kpi_status⟩ old)]
      let p := process_versions train incumbent rest
      ((v, res.run_id) :: p.1, decs ++ p.2.1, p.2.2)

/-- Observable outcome of one `update_pipeline()` invocation. -/
structure PipelineResult where
  new_files : List String
  modified_files : List String
  versions : List String
  trained : List (String × ℕ)
  decisions : List (String × Outcome)
  failed : Option String
  saved_state : Option DataState
deriving DecidableEq, Repr

/-- `update_pipeline` (`update_model.py` lines 111-179): detect changes;
return early if nothing changed; resolve versions and return early if none
resolved; retrain each resolved version, comparing against the incumbent
(its test RMSE, from `get_current_best_model`); save the new data state
only if the loop ran to completion. -/
def update_pipeline (current last : DataState)
    (train : String → Option TrainResult) (incumbent : Option ℚ) :
    PipelineResult :=
  let d := detect_new_data current last
  if d.1.isEmpty && d.2.isEmpty then
    { new_files := d.1, modified_files := d.2, versions := [], trained := [],
      decisions := [], failed := none, saved_state := none }
  else
    let all_changed := d.1 ++ d.2
    let versions := versions_to_train all_changed
    if versions.isEmpty then
      { new_files := d.1, modified_files := d.2, versions := versions,
        trained := [], decisions := [], failed := none, saved_state := none }
    else
      let p := process_versions train incumbent versions
      { new_files := d.1, modified_files := d.2, versions := versions,
        trained := p.1, decisions := p.2.1, failed := p.2.2,
        saved_state := if p.2.2.isSome then none else some current }

/-- `split_idx = int(n * (1 - test_size))` of `temporal_train_test_split`
(`train.py` line 49); for `test_size < 1` the value is nonnegative, so
Python `int` truncation coincides with the floor. -/
def split_index (n : ℕ) (test_size : ℚ) : ℕ :=
  (⌊(n : ℚ) * (1 - test_size)⌋).toNat

/-- `temporal_train_test_split` (`train.py` lines 43-56): the first
`split_idx` rows form the train partition, the rest the test partition. -/
def temporal_train_test_split (rows : List α) (test_size : ℚ) :
    List α × List α :=
  (rows.take (split_index rows.length test_size),
   rows.drop (split_index rows.length test_size))

/-- Error message raised by scikit-learn's `TimeSeriesSplit.split` when the
data has too few samples for the requested number of folds. -/
def tooFewSamplesMsg : String :=
  "Cannot have number of folds greater than the number of samples"

/-- `sklearn.model_selection.TimeSeriesSplit` with `n_splits` splits on
`n_samples` rows (defaults: no `max_train_size`, no `test_size`, no gap):
`n_folds = n_splits + 1`; raises `ValueError` when `n_folds > n_samples`;
otherwise fold `i` trains on indices `[0, test_start)` and validates on the
next `n_samples / n_folds` indices. -/
def time_series_split (n_splits n_samples : ℕ) :
    Except String (List (List ℕ × List ℕ)) :=
  let n_folds := n_splits + 1
  if n_samples < n_folds then .error tooFewSamplesMsg
  else
    let tsize := n_samples / n_folds
    .ok ((List.range n_splits).map
      (fun i =>
        let tstart := n_samples - n_splits * tsize + i * tsize
        (List.range tstart, (List.range tsize).map (· + tstart))))

/-- `cross_validate_timeseries` (`train.py` lines 67-92) with the model
fitting abstracted: each fold's metrics come from the oracle `foldMetric`
(clone, fit, predict, `compute_metrics` are external numerics).  The
`TimeSeriesSplit` error propagates uncaught. -/
def cross_validate_timeseries (n_splits n_samples : ℕ)
    (foldMetric : List ℕ × List ℕ → Metrics) :
    Except String (List Metrics) :=
  match time_series_split n_splits n_samples with
  | .error e => .error e
  | .ok folds => .ok (folds.map foldMetric)

/-- The control flow of `train_model` (`train.py` lines 95-236) around
cross-validation: after the temporal split of `n_total` rows,
`cross_validate_timeseries(model, X_train, y_train)` runs with its default
`n_splits = 5` on the train partition; no exception handler surrounds it,
so its error aborts the run before the KPI tag or run id is produced.
Fitted-model metrics are the oracle inputs `test_m`. -/
def train_model_flow (n_total : ℕ) (test_size : ℚ)
    (foldMetric : List ℕ × List ℕ → Metrics) (test_m : Metrics)
    (th : Thresholds) : Except String KpiStatus :=
  let n_train := split_index n_total test_size
  match cross_validate_timeseries 5 n_train foldMetric with
  | .error e => .error e
  | .ok _ => .ok (kpi_status test_m th)

/-- `r < best_rmse` where `best_rmse` starts as `float("inf")` (modelled
as `none`): `tune.py` line 117. -/
def lt_best (r : ℚ) : Option ℚ → Bool
  | none => true
  | some b => decide (r < b)

/-- Minimum of a list of rationals, `none` for the empty list (the value
of the running best after seeing exactly these candidates). -/
def run_min : List ℚ → Option ℚ
  | [] => none
  | r :: rest =>
    match run_min rest with
    | none => some r
    | some m => some (min r m)

/-- Combine two optional minima (`none` is plus infinity). -/
def mergeMin : Option ℚ → Option ℚ → Option ℚ
  | none, o => o
  | some a, none => some a
  | some a, some b => some (min a b)

/-- `itertools.product` over a list of value lists, in Python's order
(rightmost factor varies fastest): `tune.py` line 50. -/
def product_lists : List (List α) → List (List α)
  | [] => [[]]
  | xs :: rest => xs.flatMap (fun x => (product_lists rest).map (x :: ·))

/-- The best-tracking loop of `tune_model` (`tune.py` lines 60-124): fold
over the test RMSE of each configuration in enumeration order; a strict
improvement over `best_rmse` updates the best and logs the model artifact
for that configuration (`mlflow.sklearn.log_model` inside the
`if test_metrics["rmse"] < best_rmse` branch).  Arguments: next index,
`best_rmse`, `best_run` index, indices logged so far, remaining RMSEs.
Returns (final best value, final best index, logged indices). -/
def tune_run : ℕ → Option ℚ → Option ℕ → List ℕ → List ℚ →
    Option ℚ × Option ℕ × List ℕ
  | _, best, bidx, logged, [] => (best, bidx, logged)
  | i, best, bidx, logged, r :: rest =>
    if lt_best r best then tune_run (i + 1) (some r) (some i) (logged ++ [i]) rest
    else tune_run (i + 1) best bidx logged rest

/-- `tune_model` (`tune.py` lines 25-137) with training abstracted:
enumerate the full grid via `itertools.product`, obtain each
configuration's held-out test RMSE from the oracle `rmse_of`, and track
the best configuration and the logged artifacts. -/
def tune_model (grid : List (List ℚ)) (rmse_of : List ℚ → ℚ) :
    Option ℚ × Option ℕ × List ℕ :=
  tune_run 0 none none [] ((product_lists grid).map rmse_of)

/-! ## C1: promotion decision -/

/-- C1 (counterexample): the claim says `delta ≤ 0` promotes and a FAIL
candidate always holds.  The code promotes strictly on `delta < 0` and
never reads the candidate's KPI tag: a PASS candidate with `delta = 0`
(RMSE 2.0 vs incumbent 2.0) is held, and a FAIL candidate with RMSE 1.8
against incumbent 2.0 is promoted. -/
theorem promotion_rule_claim_false :
    decide_promotion ⟨2, .PASS⟩ 2 = .HOLD
    ∧ decide_promotion ⟨2, .PASS⟩ 2 ≠ .PROMOTE
    ∧ decide_promotion ⟨9/5, .FAIL⟩ 2 = .PROMOTE
    ∧ decide_promotion ⟨9/5, .FAIL⟩ 2 ≠ .HOLD := by
  refine ⟨?_, ?_, ?_, ?_⟩ <;> norm_num [decide_promotion] <;> decide

/-- C1 (amended): for every candidate run and existing incumbent, the
decision computed from `delta = candidate test RMSE - incumbent test RMSE`
is PROMOTE iff `delta < 0` and HOLD iff `delta ≥ 0`; the candidate's
`kpiStatus` is never consulted, so a FAIL candidate is treated exactly
like a PASS candidate with the same RMSE. -/
theorem promotion_rule_amended (c : RunRecord) (inc : ℚ) :
    (decide_promotion c inc = .PROMOTE ↔ c.test_rmse - inc < 0)
    ∧ (decide_promotion c inc = .HOLD ↔ 0 ≤ c.test_rmse - inc)
    ∧ ∀ s : KpiStatus, decide_promotion ⟨c.test_rmse, s⟩ inc = decide_promotion c inc := by
  rcases lt_or_le (c.test_rmse - inc) 0 with h | h
  · exact ⟨by simp [decide_promotion, h], by simp [decide_promotion, h, not_le.mpr h],
      fun s => rfl⟩
  · exact ⟨by simp [decide_promotion, not_lt.mpr h, h],
      by simp [decide_promotion, not_lt.mpr h, h], fun s => rfl⟩

theorem promotion_rule_amended_witness :
    decide_promotion ⟨1, .FAIL⟩ 2 = .PROMOTE :=
  (promotion_rule_amended ⟨1, .FAIL⟩ 2).1.mpr (by norm_num)

/-! ## C2: KPI gate -/

/-- C2: the KPI status is PASS iff test RMSE is strictly below the
acceptable RMSE and test R² strictly above the minimum R²; the MAE value
never affects the outcome, and the spec's concrete asymmetric-gate
instance evaluates to PASS. -/
theorem kpi_gate_spec (t : Metrics) (th : Thresholds) :
    (kpi_status t th = .PASS ↔ t.rmse < th.rmse_acceptable ∧ t.r2 > th.r2_minimum)
    ∧ (∀ m : ℚ, kpi_status ⟨t.rmse, m, t.r2⟩ th = kpi_status t th)
    ∧ kpi_status ⟨1, 100, 9/10⟩ ⟨2, 1, 1/2⟩ = .PASS := by
  refine ⟨?_, fun m => rfl, by norm_num [kpi_status]⟩
  by_cases h1 : t.rmse < th.rmse_acceptable <;>
    by_cases h2 : th.r2_minimum < t.r2 <;>
      simp [kpi_status, h1, h2]

theorem kpi_gate_spec_witness :
    kpi_status ⟨1, 100, 9/10⟩ ⟨2, 1, 1/2⟩ = .PASS :=
  (kpi_gate_spec ⟨1, 100, 9/10⟩ ⟨2, 1, 1/2⟩).2.2

/-! ## C5: temporal train/test split -/

/-- C5: for a dataset sorted by ascending time and a test fraction
`f ∈ (0,1)`, the split takes exactly `⌊n·(1-f)⌋` rows, in order, as the
train partition and the remaining rows as the test partition, and every
train timestamp is ≤ every test timestamp. -/
theorem temporal_split_spec (dates : List ℚ) (f : ℚ) (hf0 : 0 < f)
    (hf1 : f < 1) (hsorted : dates.Sorted (· ≤ ·)) :
    (temporal_train_test_split dates f).1 ++ (temporal_train_test_split dates f).2 = dates
    ∧ ((temporal_train_test_split dates f).1.length : ℤ)
        = ⌊(dates.length : ℚ) * (1 - f)⌋
    ∧ (temporal_train_test_split dates f).2.length
        = dates.length - (temporal_train_test_split dates f).1.length
    ∧ ∀ a ∈ (temporal_train_test_split dates f).1,
        ∀ b ∈ (temporal_train_test_split dates f).2, a ≤ b := by
  have hnn : (0 : ℚ) ≤ (dates.length : ℚ) * (1 - f) :=
    mul_nonneg (Nat.cast_nonneg _) (by linarith)
  have hfl0 : (0 : ℤ) ≤ ⌊(dates.length : ℚ) * (1 - f)⌋ := Int.floor_nonneg.mpr hnn
  have hle : ⌊(dates.length : ℚ) * (1 - f)⌋ ≤ (dates.length : ℤ) := by
    have h1 : (dates.length : ℚ) * (1 - f) ≤ (dates.length : ℚ) :=
      mul_le_of_le_one_right (Nat.cast_nonneg _) (by linarith)
    calc ⌊(dates.length : ℚ) * (1 - f)⌋ ≤ ⌊(dates.length : ℚ)⌋ :=
          Int.floor_le_floor h1
      _ = (dates.length : ℤ) := Int.floor_natCast _
  have hkn : split_index dates.length f ≤ dates.length := by
    unfold split_index
    omega
  refine ⟨List.take_append_drop _ _, ?_, ?_, ?_⟩
  · show ((dates.take (split_index dates.length f)).length : ℤ) = _
    rw [List.length_take, min_eq_left hkn]
    unfold split_index
    omega
  · show (dates.drop _).length = dates.length - (dates.take _).length
    rw [List.length_drop, List.length_take, min_eq_left hkn]
  · intro a ha b hb
    have hp : dates.Pairwise (· ≤ ·) := hsorted
    rw [← List.take_append_drop (split_index dates.length f) dates] at hp
    exact (List.pairwise_append.mp hp).2.2 a ha b hb

theorem temporal_split_spec_witness :
    ((0 : ℚ) < 1/5 ∧ (1/5 : ℚ) < 1
      ∧ ((List.range 100).map (fun i : ℕ => (i : ℚ))).Sorted (· ≤ ·))
    ∧ ((temporal_train_test_split ((List.range 100).map (fun i : ℕ => (i : ℚ))) (1/5)).1.length = 80
      ∧ (temporal_train_test_split ((List.range 100).map (fun i : ℕ => (i : ℚ))) (1/5)).2.length = 20)
    ∧ (temporal_train_test_split ((List.range 100).map (fun i : ℕ => (i : ℚ))) (1/5)).1
        ++ (temporal_train_test_split ((List.range 100).map (fun i : ℕ => (i : ℚ))) (1/5)).2
        = (List.range 100).map (fun i : ℕ => (i : ℚ)) := by
  have hs : ((List.range 100).map (fun i : ℕ => (i : ℚ))).Sorted (· ≤ ·) :=
    List.Pairwise.map (fun i : ℕ => (i : ℚ))
      (fun a b hab => by show (a : ℚ) ≤ (b : ℚ); exact_mod_cast Nat.le_of_lt hab)
      (List.pairwise_lt_range 100)
  have hsi : split_index 100 (1/5) = 80 := by
    unfold split_index
    have h1 : ((100 : ℕ) : ℚ) * (1 - 1/5) = ((80 : ℤ) : ℚ) := by norm_num
    rw [h1, Int.floor_intCast]
    rfl
  refine ⟨⟨by norm_num, by norm_num, hs⟩, ⟨?_, ?_⟩,
    (temporal_split_spec _ (1/5) (by norm_num) (by norm_num) hs).1⟩
  · simp only [temporal_train_test_split, List.length_take, List.length_map,
      List.length_range]
    rw [hsi]
    omega
  · simp only [temporal_train_test_split, List.length_drop, List.length_map,
      List.length_range]
    rw [hsi]

/-! ## C6: change detection classification -/

lemma detect_new_data_cons_none (p : String × FileInfo) (rest last : DataState)
    (h : lookupState p.1 last = none) :
    detect_new_data (p :: rest) last =
      (p.1 :: (detect_new_data rest last).1, (detect_new_data rest last).2) := by
  simp [detect_new_data, h]

lemma detect_new_data_cons_some (p : String × FileInfo) (rest last : DataState)
    (prev : FileInfo) (h : lookupState p.1 last = some prev) :
    detect_new_data (p :: rest) last =
      if prev.md5 ≠ p.2.md5
      then ((detect_new_data rest last).1, p.1 :: (detect_new_data rest last).2)
      else detect_new_data rest last := by
  by_cases hm : prev.md5 = p.2.md5 <;> simp [detect_new_data, h, hm]

lemma mem_detect_new (current last : DataState) (f : String) :
    f ∈ (detect_new_data current last).1 ↔
      ∃ info, (f, info) ∈ current ∧ lookupState f last = none := by
  induction current with
  | nil => simp [detect_new_data]
  | cons p rest ih =>
    cases h : lookupState p.1 last with
    | none =>
      rw [detect_new_data_cons_none p rest last h]
      show f ∈ p.1 :: (detect_new_data rest last).1 ↔ _
      simp only [List.mem_cons]
      constructor
      · rintro (rfl | hf)
        · exact ⟨p.2, Or.inl Prod.mk.eta, h⟩
        · obtain ⟨info, hmem, hl⟩ := ih.mp hf
          exact ⟨info, Or.inr hmem, hl⟩
      · rintro ⟨info, heq | hmem2, hl⟩
        · exact Or.inl (congrArg Prod.fst heq)
        · exact Or.inr (ih.mpr ⟨info, hmem2, hl⟩)
    | some prev =>
      rw [detect_new_data_cons_some p rest last prev h]
      have key : f ∈ (detect_new_data rest last).1 ↔
          ∃ info, (f, info) ∈ p :: rest ∧ lookupState f last = none := by
        rw [ih]
        constructor
        · rintro ⟨info, hmem, hl⟩
          exact ⟨info, List.mem_cons_of_mem _ hmem, hl⟩
        · rintro ⟨info, hmem, hl⟩
          rcases List.mem_cons.mp hmem with heq | hmem2
          · have hf : f = p.1 := congrArg Prod.fst heq
            rw [hf, h] at hl
            cases hl
          · exact ⟨info, hmem2, hl⟩
      by_cases hm : prev.md5 ≠ p.2.md5
      · rw [if_pos hm]
        exact key
      · rw [if_neg hm]
        exact key

lemma mem_detect_modified (current last : DataState) (f : String) :
    f ∈ (detect_new_data current last).2 ↔
      ∃ info prev, (f, info) ∈ current ∧ lookupState f last = some prev
        ∧ prev.md5 ≠ info.md5 := by
  induction current with
  | nil => simp [detect_new_data]
  | cons p rest ih =>
    cases h : lookupState p.1 last with
    | none =>
      rw [detect_new_data_cons_none p rest last h]
      show f ∈ (detect_new_data rest last).2 ↔ _
      rw [ih]
      constructor
      · rintro ⟨info, prev, hmem, hl, hne⟩
        exact ⟨info, prev, List.mem_cons_of_mem _ hmem, hl, hne⟩
      · rintro ⟨info, prev, hmem, hl, hne⟩
        rcases List.mem_cons.mp hmem with heq | hmem2
        · have hf : f = p.1 := congrArg Prod.fst heq
          rw [hf, h] at hl
          cases hl
        · exact ⟨info, prev, hmem2, hl, hne⟩
    | some prev =>
      rw [detect_new_data_cons_some p rest last prev h]
      by_cases hm : prev.md5 ≠ p.2.md5
      · rw [if_pos hm]
        show f ∈ p.1 :: (detect_new_data rest last).2 ↔ _
        constructor
        · intro hf
          rcases List.mem_cons.mp hf with rfl | hf2
          · exact ⟨p.2, prev, List.mem_cons.mpr (Or.inl (by simp)), h, hm⟩
          · obtain ⟨info, prev2, hmem, hl, hne⟩ := ih.mp hf2
            exact ⟨info, prev2, List.mem_cons_of_mem _ hmem, hl, hne⟩
        · rintro ⟨info, prev2, hmem, hl, hne⟩
          rcases List.mem_cons.mp hmem with heq | hmem2
          · exact List.mem_cons.mpr (Or.inl (congrArg Prod.fst heq))
          · exact List.mem_cons.mpr (Or.inr (ih.mpr ⟨info, prev2, hmem2, hl, hne⟩))
      · rw [if_neg hm]
        rw [ih]
        constructor
        · rintro ⟨info, prev2, hmem, hl, hne⟩
          exact ⟨info, prev2, List.mem_cons_of_mem _ hmem, hl, hne⟩
        · rintro ⟨info, prev2, hmem, hl, hne⟩
          rcases List.mem_cons.mp hmem with heq | hmem2
          · exfalso
            have hf : f = p.1 := congrArg Prod.fst heq
            have hi : info = p.2 := congrArg Prod.snd heq
            rw [hf, h] at hl
            have hp : prev = prev2 := Option.some.inj hl
            push_neg at hm
            rw [← hp, hi] at hne
            exact hne hm
          · exact ⟨info, prev2, hmem2, hl, hne⟩

lemma mem_keys_unique (l : DataState) (h : (l.map Prod.fst).Nodup)
    {f : String} {a b : FileInfo} (ha : (f, a) ∈ l) (hb : (f, b) ∈ l) :
    a = b := by
  induction l with
  | nil => cases ha
  | cons p rest ih =>
    rw [List.map_cons, List.nodup_cons] at h
    rcases List.mem_cons.mp ha with hha | hha <;>
      rcases List.mem_cons.mp hb with hhb | hhb
    · rw [← hha] at hhb
      exact (congrArg Prod.snd hhb).symm
    · exfalso
      apply h.1
      rw [← congrArg Prod.fst hha]
      exact List.mem_map.mpr ⟨(f, b), hhb, rfl⟩
    · exfalso
      apply h.1
      rw [← congrArg Prod.fst hhb]
      exact List.mem_map.mpr ⟨(f, a), hha, rfl⟩
    · exact ih h.2 hha hhb

/-- C6: change detection classifies a file as new iff its name is absent
from the prior state, and as modified iff it is present with a different
content hash; a file whose hash is unchanged is never reported modified
(whatever its mtime or size), and a file absent from the current
directory snapshot is not reported at all. -/
theorem detect_spec (current last : DataState)
    (h : (current.map Prod.fst).Nodup) :
    (∀ f, f ∈ (detect_new_data current last).1 ↔
        ∃ info, (f, info) ∈ current ∧ lookupState f last = none)
    ∧ (∀ f, f ∈ (detect_new_data current last).2 ↔
        ∃ info prev, (f, info) ∈ current ∧ lookupState f last = some prev
          ∧ prev.md5 ≠ info.md5)
    ∧ (∀ f info prev, (f, info) ∈ current → lookupState f last = some prev →
        prev.md5 = info.md5 → f ∉ (detect_new_data current last).2)
    ∧ (∀ f, f ∉ current.map Prod.fst →
        f ∉ (detect_new_data current last).1 ∧ f ∉ (detect_new_data current last).2) := by
  refine ⟨mem_detect_new current last, mem_detect_modified current last, ?_, ?_⟩
  · intro f info prev hmem hl heq hmod
    obtain ⟨info2, prev2, hmem2, hl2, hne⟩ :=
      (mem_detect_modified current last f).mp hmod
    have hinfo : info2 = info := mem_keys_unique current h hmem2 hmem
    rw [hl] at hl2
    have hprev : prev2 = prev := (Option.some.inj hl2).symm
    rw [hinfo, hprev] at hne
    exact hne heq
  · intro f hf
    constructor
    · intro hmem
      obtain ⟨info, hmem2, _⟩ := (mem_detect_new current last f).mp hmem
      exact hf (List.mem_map.mpr ⟨(f, info), hmem2, rfl⟩)
    · intro hmem
      obtain ⟨info, prev, hmem2, _, _⟩ := (mem_detect_modified current last f).mp hmem
      exact hf (List.mem_map.mpr ⟨(f, info), hmem2, rfl⟩)

theorem detect_spec_witness :
    (([("a.csv", FileInfo.mk "p" "h1" 0 1),
        ("b.csv", FileInfo.mk "p" "h2" 3 7)].map Prod.fst).Nodup)
    ∧ "a.csv" ∈ (detect_new_data
        [("a.csv", FileInfo.mk "p" "h1" 0 1), ("b.csv", FileInfo.mk "p" "h2" 3 7)]
        [("b.csv", FileInfo.mk "q" "h2" 5 9)]).1 :=
  ⟨by decide,
   ((detect_spec _ _ (by decide)).1 "a.csv").mpr
     ⟨FileInfo.mk "p" "h1" 0 1, by decide, rfl⟩⟩

/-! ## C10: only ".csv" files are tracked -/

lemma detect_new_subset_keys (current last : DataState) (f : String)
    (h : f ∈ (detect_new_data current last).1) :
    f ∈ current.map Prod.fst := by
  obtain ⟨info, hmem, _⟩ := (mem_detect_new current last f).mp h
  exact List.mem_map.mpr ⟨(f, info), hmem, rfl⟩

lemma detect_modified_subset_keys (current last : DataState) (f : String)
    (h : f ∈ (detect_new_data current last).2) :
    f ∈ current.map Prod.fst := by
  obtain ⟨info, prev, hmem, _, _⟩ := (mem_detect_modified current last f).mp h
  exact List.mem_map.mpr ⟨(f, info), hmem, rfl⟩

lemma unchanged_subset_keys (current last : DataState) (f : String)
    (h : f ∈ unchanged_files current last) :
    f ∈ current.map Prod.fst := by
  obtain ⟨p, hp, hf⟩ := List.mem_map.mp h
  exact List.mem_map.mpr ⟨p, (List.mem_filter.mp hp).1, hf⟩

/-- C10: a file whose name does not end in ".csv" never enters the
computed data state, and is never classified as new, modified, or
unchanged by change detection, against any prior state. -/
theorem csv_only_tracking (files : List String) (fs : String → FileInfo)
    (f : String) (h : ends_with_csv f = false) :
    f ∉ (get_data_state files fs).map Prod.fst
    ∧ ∀ last : DataState,
        f ∉ (detect_new_data (get_data_state files fs) last).1
        ∧ f ∉ (detect_new_data (get_data_state files fs) last).2
        ∧ f ∉ unchanged_files (get_data_state files fs) last := by
  have hkey : f ∉ (get_data_state files fs).map Prod.fst := by
    intro hmem
    unfold get_data_state at hmem
    rw [List.map_map] at hmem
    obtain ⟨g, hg, hfg⟩ := List.mem_map.mp hmem
    have hcsv : ends_with_csv g = true := (List.mem_filter.mp hg).2
    have : g = f := hfg
    rw [this] at hcsv
    rw [h] at hcsv
    cases hcsv
  refine ⟨hkey, fun last => ⟨?_, ?_, ?_⟩⟩
  · intro hmem
    exact hkey (detect_new_subset_keys _ last f hmem)
  · intro hmem
    exact hkey (detect_modified_subset_keys _ last f hmem)
  · intro hmem
    exact hkey (unchanged_subset_keys _ last f hmem)

theorem csv_only_tracking_witness :
    ends_with_csv "notes.txt" = false
    ∧ "notes.txt" ∉ (get_data_state ["notes.txt", "gold_v1.csv"]
        (fun g => FileInfo.mk g "h" 0 0)).map Prod.fst :=
  ⟨by decide,
   (csv_only_tracking ["notes.txt", "gold_v1.csv"]
      (fun g => FileInfo.mk g "h" 0 0) "notes.txt" (by decide)).1⟩

/-! ## C3: version resolution and abort behaviour -/

/-- C3 (counterexample): a filename containing both markers resolves to
"v1" instead of being unresolved, and a changed set containing an
unresolvable file ("a.csv") together with a resolvable one does not abort:
the pipeline trains "v1" and commits the state. -/
theorem version_resolution_claim_false :
    versions_to_train ["gold_v1_v2.csv"] = ["v1"]
    ∧ versions_to_train ["a.csv", "gold_v1.csv"] = ["v1"]
    ∧ (update_pipeline
        [("a.csv", FileInfo.mk "p" "h1" 0 1), ("gold_v1.csv", FileInfo.mk "p" "h2" 0 1)]
        [] (fun _ => some (TrainResult.mk 1 1 .PASS)) none).trained = [("v1", 1)]
    ∧ (update_pipeline
        [("a.csv", FileInfo.mk "p" "h1" 0 1), ("gold_v1.csv", FileInfo.mk "p" "h2" 0 1)]
        [] (fun _ => some (TrainResult.mk 1 1 .PASS)) none).saved_state
      = some [("a.csv", FileInfo.mk "p" "h1" 0 1), ("gold_v1.csv", FileInfo.mk "p" "h2" 0 1)] := by
  refine ⟨?_, ?_, ?_, ?_⟩ <;> decide

/-- C3 (amended): resolution maps a changed filename to "v1" whenever it
contains the substring "v1" (even if it also contains "v2"), else to "v2"
whenever it contains "v2", and silently skips it otherwise; the pipeline
aborts before training only when no changed filename resolves to any
version (then nothing is trained and no state is committed). -/
theorem version_resolution_amended (current last : DataState)
    (train : String → Option TrainResult) (inc : Option ℚ) :
    (versions_to_train ((detect_new_data current last).1
        ++ (detect_new_data current last).2) = [] →
      (update_pipeline current last train inc).trained = []
      ∧ (update_pipeline current last train inc).decisions = []
      ∧ (update_pipeline current last train inc).failed = none
      ∧ (update_pipeline current last train inc).saved_state = none)
    ∧ (∀ gs, versions_to_train gs = [] ↔
        ∀ g ∈ gs, contains_marker g "v1" = false ∧ contains_marker g "v2" = false)
    ∧ (∀ gs g, g ∈ gs → contains_marker g "v1" = true →
        "v1" ∈ versions_to_train gs)
    ∧ (∀ gs g, g ∈ gs → contains_marker g "v1" = false →
        contains_marker g "v2" = true → "v2" ∈ versions_to_train gs) := by
  refine ⟨?_, ?_, ?_, ?_⟩
  · intro hv
    rcases Bool.eq_false_or_eq_true
        ((detect_new_data current last).1.isEmpty
          && (detect_new_data current last).2.isEmpty) with hd | hd
    · refine ⟨?_, ?_, ?_, ?_⟩ <;> simp [update_pipeline, hd, hv]
    · refine ⟨?_, ?_, ?_, ?_⟩ <;> simp [update_pipeline, hd, hv]
  · intro gs
    unfold versions_to_train
    rw [List.filterMap_eq_nil_iff]
    constructor
    · intro hall g hg
      have := hall g hg
      by_cases h1 : contains_marker g "v1" = true
      · rw [if_pos h1] at this
        cases this
      · by_cases h2 : contains_marker g "v2" = true
        · rw [if_neg h1, if_pos h2] at this
          cases this
        · exact ⟨Bool.eq_false_iff.mpr h1, Bool.eq_false_iff.mpr h2⟩
    · intro hall g hg
      obtain ⟨h1, h2⟩ := hall g hg
      simp [h1, h2]
  · intro gs g hg h1
    exact List.mem_filterMap.mpr ⟨g, hg, by simp [h1]⟩
  · intro gs g hg h1 h2
    exact List.mem_filterMap.mpr ⟨g, hg, by simp [h1, h2]⟩

theorem version_resolution_amended_witness :
    "v1" ∈ versions_to_train ["gold_v1.csv"] :=
  (version_resolution_amended [] [] (fun _ => none) none).2.2.1
    ["gold_v1.csv"] "gold_v1.csv" (by decide) (by decide)

/-! ## C4: state committed only after full success -/

lemma process_versions_failed_none_iff (train : String → Option TrainResult)
    (inc : Option ℚ) (vs : List String) :
    (process_versions train inc vs).2.2 = none ↔ ∀ v ∈ vs, (train v).isSome := by
  induction vs with
  | nil => simp [process_versions]
  | cons v rest ih =>
    cases ht : train v with
    | none => simp [process_versions, ht]
    | some res => simp [process_versions, ht, ih]

lemma process_versions_complete (train : String → Option TrainResult)
    (inc : Option ℚ) (vs : List String)
    (hnone : (process_versions train inc vs).2.2 = none) :
    ∀ v ∈ vs, ∃ r, train v = some r
      ∧ (v, r.run_id) ∈ (process_versions train inc vs).1
      ∧ ∀ old, inc = some old →
          (v, decide_promotion ⟨r.test_rmse, r.kpi_status⟩ old)
            ∈ (process_versions train inc vs).2.1 := by
  induction vs with
  | nil => intro v hv; cases hv
  | cons w rest ih =>
    intro v hv
    cases ht : train w with
    | none =>
      exfalso
      simp [process_versions, ht] at hnone
    | some res =>
      have hrest : (process_versions train inc rest).2.2 = none := by
        simpa [process_versions, ht] using hnone
      have hcons1 : (process_versions train inc (w :: rest)).1
          = (w, res.run_id) :: (process_versions train inc rest).1 := by
        simp [process_versions, ht]
      rcases List.mem_cons.mp hv with rfl | hv2
      · refine ⟨res, ht, ?_, ?_⟩
        · rw [hcons1]
          exact List.mem_cons_self _ _
        · intro old hold
          subst hold
          have hcons2 : (process_versions train (some old) (v :: rest)).2.1
              = [(v, decide_promotion ⟨res.test_rmse, res.kpi_status⟩ old)]
                ++ (process_versions train (some old) rest).2.1 := by
            simp [process_versions, ht]
          rw [hcons2]
          exact List.mem_append_left _ (List.mem_cons_self _ _)
      · obtain ⟨r, hr, hmem1, hmem2⟩ := ih hrest v hv2
        refine ⟨r, hr, ?_, ?_⟩
        · rw [hcons1]
          exact List.mem_cons_of_mem _ hmem1
        · intro old hold
          subst hold
          have hcons2 : (process_versions train (some old) (w :: rest)).2.1
              = [(w, decide_promotion ⟨res.test_rmse, res.kpi_status⟩ old)]
                ++ (process_versions train (some old) rest).2.1 := by
            simp [process_versions, ht]
          rw [hcons2]
          exact List.mem_append_right _ (hmem2 old rfl)

/-- C4: the new data state is committed only when every resolved version
was trained to completion; the committed state is exactly the freshly
scanned current state, no version failed, and every version has its run
recorded (with a promotion decision whenever an incumbent exists).
Contrapositively, a fatal failure on any version prevents the commit. -/
theorem commit_only_after_success (current last : DataState)
    (train : String → Option TrainResult) (inc : Option ℚ) (s : DataState)
    (hs : (update_pipeline current last train inc).saved_state = some s) :
    s = current
    ∧ (update_pipeline current last train inc).failed = none
    ∧ (update_pipeline current last train inc).versions ≠ []
    ∧ ∀ v ∈ (update_pipeline current last train inc).versions,
        ∃ r, train v = some r
          ∧ (v, r.run_id) ∈ (update_pipeline current last train inc).trained
          ∧ ∀ old, inc = some old →
              (v, decide_promotion ⟨r.test_rmse, r.kpi_status⟩ old)
                ∈ (update_pipeline current last train inc).decisions := by
  cases hd : ((detect_new_data current last).1.isEmpty
      && (detect_new_data current last).2.isEmpty) with
  | true => simp [update_pipeline, hd] at hs
  | false =>
  cases hve : versions_to_train ((detect_new_data current last).1
      ++ (detect_new_data current last).2) with
  | nil => simp [update_pipeline, hd, hve] at hs
  | cons v0 rest0 =>
  cases hp : (process_versions train inc (v0 :: rest0)).2.2 with
  | some w =>
    exfalso
    simp [update_pipeline, hd, hve, hp] at hs
  | none =>
    have hseq : current = s := by
      simpa [update_pipeline, hd, hve, hp] using hs
    refine ⟨hseq.symm, ?_, ?_, ?_⟩
    · simp [update_pipeline, hd, hve, hp]
    · simp [update_pipeline, hd, hve]
    · intro v hv
      have hv2 : v ∈ v0 :: rest0 := by
        have hvers : (update_pipeline current last train inc).versions
            = v0 :: rest0 := by
          simp [update_pipeline, hd, hve]
        rwa [hvers] at hv
      obtain ⟨r, hr, hmem1, hmem2⟩ :=
        process_versions_complete train inc (v0 :: rest0) hp v hv2
      refine ⟨r, hr, ?_, ?_⟩
      · have htr : (update_pipeline current last train inc).trained
            = (process_versions train inc (v0 :: rest0)).1 := by
          simp [update_pipeline, hd, hve]
        rw [htr]
        exact hmem1
      · intro old hold
        have hde : (update_pipeline current last train inc).decisions
            = (process_versions train inc (v0 :: rest0)).2.1 := by
          simp [update_pipeline, hd, hve]
        rw [hde]
        exact hmem2 old hold

theorem commit_only_after_success_witness :
    (update_pipeline [("gold_v1.csv", FileInfo.mk "p" "h" 0 1)] []
        (fun _ => some (TrainResult.mk 1 1 .PASS)) none).saved_state
      = some [("gold_v1.csv", FileInfo.mk "p" "h" 0 1)]
    ∧ ([("gold_v1.csv", FileInfo.mk "p" "h" 0 1)] : DataState)
      = [("gold_v1.csv", FileInfo.mk "p" "h" 0 1)] :=
  ⟨by decide,
   (commit_only_after_success [("gold_v1.csv", FileInfo.mk "p" "h" 0 1)] []
      (fun _ => some (TrainResult.mk 1 1 .PASS)) none
      [("gold_v1.csv", FileInfo.mk "p" "h" 0 1)] (by decide)).1⟩

/-! ## C7: behaviour on a per-version fatal error -/

lemma process_versions_prefix_fail (train : String → Option TrainResult)
    (inc : Option ℚ) (v : String) (hv : train v = none) :
    ∀ vs1 : List String, (∀ w ∈ vs1, (train w).isSome) → ∀ vs2 : List String,
      (process_versions train inc (vs1 ++ v :: vs2)).2.2 = some v
      ∧ (process_versions train inc (vs1 ++ v :: vs2)).1.map Prod.fst = vs1 := by
  intro vs1
  induction vs1 with
  | nil =>
    intro _ vs2
    simp [process_versions, hv]
  | cons w rest ih =>
    intro hall vs2
    have hw : (train w).isSome := hall w (List.mem_cons_self _ _)
    obtain ⟨res, hres⟩ := Option.isSome_iff_exists.mp hw
    have hrest := ih (fun x hx => hall x (List.mem_cons_of_mem _ hx)) vs2
    constructor
    · simp [process_versions, hres, hrest.1]
    · simp [process_versions, hres, hrest.2]

/-- C7 (counterexample): two new files resolve to versions v1 and v2;
training v1 fails fatally while training v2 would succeed.  The code
aborts the whole cycle at v1: v2 is never attempted (nothing is trained)
and nothing at all is committed — not even the successful part the claim
expects. -/
theorem per_version_isolation_claim_false :
    (update_pipeline
        [("gold_v1.csv", FileInfo.mk "p" "h1" 0 1),
          ("gold_v2.csv", FileInfo.mk "p" "h2" 0 1)] []
        (fun w => if w = "v2" then some (TrainResult.mk 7 1 .PASS) else none)
        none).versions = ["v1", "v2"]
    ∧ (update_pipeline
        [("gold_v1.csv", FileInfo.mk "p" "h1" 0 1),
          ("gold_v2.csv", FileInfo.mk "p" "h2" 0 1)] []
        (fun w => if w = "v2" then some (TrainResult.mk 7 1 .PASS) else none)
        none).trained = []
    ∧ (update_pipeline
        [("gold_v1.csv", FileInfo.mk "p" "h1" 0 1),
          ("gold_v2.csv", FileInfo.mk "p" "h2" 0 1)] []
        (fun w => if w = "v2" then some (TrainResult.mk 7 1 .PASS) else none)
        none).failed = some "v1"
    ∧ (update_pipeline
        [("gold_v1.csv", FileInfo.mk "p" "h1" 0 1),
          ("gold_v2.csv", FileInfo.mk "p" "h2" 0 1)] []
        (fun w => if w = "v2" then some (TrainResult.mk 7 1 .PASS) else none)
        none).saved_state = none
    ∧ (fun w => if w = "v2" then some (TrainResult.mk 7 1 .PASS) else none) "v2"
        = some (TrainResult.mk 7 1 .PASS) := by
  refine ⟨?_, ?_, ?_, ?_, ?_⟩ <;> decide

/-- C7 (amended): a fatal training error on one version aborts the whole
cycle at that version: the versions before it are the only ones trained,
the versions after it are never attempted, and whenever any version
failed the pipeline commits no state at all. -/
theorem per_version_isolation_amended (train : String → Option TrainResult)
    (inc : Option ℚ) (v : String) (vs1 vs2 : List String)
    (h1 : ∀ w ∈ vs1, (train w).isSome) (h2 : train v = none) :
    (process_versions train inc (vs1 ++ v :: vs2)).2.2 = some v
    ∧ (process_versions train inc (vs1 ++ v :: vs2)).1.map Prod.fst = vs1
    ∧ ∀ current last : DataState,
        (update_pipeline current last train inc).failed ≠ none →
        (update_pipeline current last train inc).saved_state = none := by
  refine ⟨(process_versions_prefix_fail train inc v h2 vs1 h1 vs2).1,
    (process_versions_prefix_fail train inc v h2 vs1 h1 vs2).2, ?_⟩
  intro current last hf
  cases hd : ((detect_new_data current last).1.isEmpty
      && (detect_new_data current last).2.isEmpty) with
  | true =>
    exfalso
    apply hf
    simp [update_pipeline, hd]
  | false =>
  cases hve : versions_to_train ((detect_new_data current last).1
      ++ (detect_new_data current last).2) with
  | nil =>
    exfalso
    apply hf
    simp [update_pipeline, hd, hve]
  | cons v0 rest0 =>
  cases hp : (process_versions train inc (v0 :: rest0)).2.2 with
  | none =>
    exfalso
    apply hf
    simp [update_pipeline, hd, hve, hp]
  | some w =>
    simp [update_pipeline, hd, hve, hp]

theorem per_version_isolation_amended_witness :
    ((∀ w ∈ ["v2"],
        ((fun x => if x = "v2" then some (TrainResult.mk 7 1 KpiStatus.PASS)
          else none) w).isSome)
      ∧ (fun x => if x = "v2" then some (TrainResult.mk 7 1 KpiStatus.PASS)
          else none) "v1" = none)
    ∧ (process_versions
        (fun x => if x = "v2" then some (TrainResult.mk 7 1 KpiStatus.PASS)
          else none)
        none (["v2"] ++ "v1" :: ["v2"])).2.2 = some "v1" :=
  ⟨⟨by decide, by decide⟩,
   (per_version_isolation_amended
      (fun x => if x = "v2" then some (TrainResult.mk 7 1 KpiStatus.PASS)
        else none)
      none "v1" ["v2"] ["v2"] (by decide) (by decide)).1⟩

/-! ## C9: cross-validation on too few rows -/

/-- C9 (code behaviour at the claim's precondition): when the train
partition has fewer rows than `n_splits + 1` — the minimum
`TimeSeriesSplit` requires — cross-validation raises instead of being
skipped or reduced, and `train_model`, which calls it with its default
5 splits and no handler, aborts with that error instead of completing
the run. -/
theorem cv_too_few_rows_crash (k n : ℕ)
    (fm : List ℕ × List ℕ → Metrics) (h : n < k + 1) :
    cross_validate_timeseries k n fm = .error tooFewSamplesMsg
    ∧ ∀ (n_total : ℕ) (f : ℚ) (tm : Metrics) (th : Thresholds),
        split_index n_total f = n → k = 5 →
        train_model_flow n_total f fm tm th = .error tooFewSamplesMsg := by
  have hcv : cross_validate_timeseries k n fm = .error tooFewSamplesMsg := by
    unfold cross_validate_timeseries time_series_split
    rw [if_pos h]
  refine ⟨hcv, ?_⟩
  intro n_total f tm th hsplit hk
  subst hk
  simp [train_model_flow, hsplit, hcv]

theorem cv_too_few_rows_crash_witness :
    (5 < 5 + 1)
    ∧ cross_validate_timeseries 5 5 (fun _ => Metrics.mk 0 0 0)
        = .error tooFewSamplesMsg :=
  ⟨by decide, (cv_too_few_rows_crash 5 5 (fun _ => Metrics.mk 0 0 0) (by decide)).1⟩

/-! ## C8: grid search enumeration, best tracking, artifact logging -/

lemma mem_product_lists {α : Type} (ls : List (List α)) (c : List α) :
    c ∈ product_lists ls ↔ List.Forall₂ (fun x xs => x ∈ xs) c ls := by
  induction ls generalizing c with
  | nil =>
    show c ∈ [([] : List α)] ↔ _
    rw [List.forall₂_nil_right_iff, List.mem_singleton]
  | cons xs rest ih =>
    show c ∈ xs.flatMap (fun x => (product_lists rest).map (x :: ·)) ↔ _
    rw [List.mem_flatMap]
    constructor
    · rintro ⟨x, hx, hc⟩
      obtain ⟨c2, hc2, rfl⟩ := List.mem_map.mp hc
      exact List.Forall₂.cons hx ((ih c2).mp hc2)
    · intro h
      cases h with
      | cons ha htail =>
        exact ⟨_, ha, List.mem_map.mpr ⟨_, (ih _).mpr htail, rfl⟩⟩

lemma run_min_eq_none_iff (l : List ℚ) : run_min l = none ↔ l = [] := by
  cases l with
  | nil => simp [run_min]
  | cons r rest =>
    simp only [run_min]
    cases run_min rest <;> simp

lemma run_min_le_mem (l : List ℚ) : ∀ x ∈ l, ∀ m, run_min l = some m → m ≤ x := by
  induction l with
  | nil => intro x hx; cases hx
  | cons r rest ih =>
    intro x hx m hm
    rcases List.mem_cons.mp hx with rfl | hx2
    · cases hr : run_min rest with
      | none =>
        simp [run_min, hr] at hm
        exact le_of_eq hm.symm
      | some mm =>
        simp [run_min, hr] at hm
        rw [← hm]
        exact min_le_left _ _
    · cases hr : run_min rest with
      | none =>
        rw [run_min_eq_none_iff] at hr
        subst hr
        cases hx2
      | some mm =>
        have hle := ih x hx2 mm hr
        simp [run_min, hr] at hm
        rw [← hm]
        exact le_trans (min_le_right _ _) hle

lemma mergeMin_none_right (best : Option ℚ) : mergeMin best none = best := by
  cases best <;> rfl

lemma mergeMin_cons (best : Option ℚ) (r : ℚ) (l : List ℚ) :
    mergeMin best (run_min (r :: l)) = mergeMin (mergeMin best (some r)) (run_min l) := by
  cases best with
  | none => cases hr : run_min l <;> simp [mergeMin, run_min, hr]
  | some bb => cases hr : run_min l <;> simp [mergeMin, run_min, hr, min_assoc]

lemma mergeMin_update_true (best : Option ℚ) (r : ℚ) (h : lt_best r best = true) :
    mergeMin best (some r) = some r := by
  cases best with
  | none => rfl
  | some bb =>
    have hlt : r < bb := by simpa [lt_best] using h
    simp [mergeMin, min_eq_right hlt.le]

lemma mergeMin_update_false (best : Option ℚ) (r : ℚ) (h : lt_best r best = false) :
    mergeMin best (some r) = best := by
  cases best with
  | none => simp [lt_best] at h
  | some bb =>
    have hle : bb ≤ r := by simpa [lt_best, not_lt] using h
    simp [mergeMin, min_eq_left hle]

lemma tune_run_fst (rs : List ℚ) :
    ∀ (i : ℕ) (best : Option ℚ) (b : Option ℕ) (lg : List ℕ),
    (tune_run i best b lg rs).1 = mergeMin best (run_min rs) := by
  induction rs with
  | nil =>
    intro i best b lg
    cases best <;> simp [tune_run, mergeMin, run_min]
  | cons r rest ih =>
    intro i best b lg
    by_cases h : lt_best r best = true
    · have heq : tune_run i best b lg (r :: rest)
          = tune_run (i+1) (some r) (some i) (lg ++ [i]) rest := by
        simp [tune_run, h]
      rw [heq, ih, mergeMin_cons, mergeMin_update_true best r h]
    · have hf : lt_best r best = false := by simpa using h
      have heq : tune_run i best b lg (r :: rest)
          = tune_run (i+1) best b lg rest := by
        simp [tune_run, h]
      rw [heq, ih, mergeMin_cons, mergeMin_update_false best r hf]

lemma tune_run_best_idx (rs : List ℚ) :
    ∀ (i : ℕ) (best : Option ℚ) (b : Option ℕ) (lg : List ℕ),
    ((tune_run i best b lg rs).1 = best ∧ (tune_run i best b lg rs).2.1 = b)
    ∨ ∃ k, ∃ hk : k < rs.length,
        (tune_run i best b lg rs).2.1 = some (i + k)
        ∧ (tune_run i best b lg rs).1 = some (rs.get ⟨k, hk⟩)
        ∧ lt_best (rs.get ⟨k, hk⟩) best = true
        ∧ ∀ m, ∀ hm : m < k, rs.get ⟨k, hk⟩ < rs.get ⟨m, lt_trans hm hk⟩ := by
  induction rs with
  | nil => intro i best b lg; exact Or.inl ⟨rfl, rfl⟩
  | cons r rest ih =>
    intro i best b lg
    by_cases h : lt_best r best = true
    · have heq : tune_run i best b lg (r :: rest)
          = tune_run (i+1) (some r) (some i) (lg ++ [i]) rest := by
        simp [tune_run, h]
      rcases ih (i+1) (some r) (some i) (lg ++ [i]) with ⟨h1, h2⟩ | ⟨k, hk, h1, h2, h3, h4⟩
      · refine Or.inr ⟨0, Nat.succ_pos _, ?_, ?_, h, ?_⟩
        · rw [heq, h2]
          exact congrArg some (by omega)
        · rw [heq, h1]
          rfl
        · intro m hm
          exact absurd hm (Nat.not_lt_zero m)
      · refine Or.inr ⟨k + 1, Nat.succ_lt_succ hk, ?_, ?_, ?_, ?_⟩
        · rw [heq, h1]
          exact congrArg some (by omega)
        · rw [heq, h2]
          rfl
        · show lt_best (rest.get ⟨k, hk⟩) best = true
          cases best with
          | none => simp [lt_best]
          | some bb =>
            have hrb : r < bb := by simpa [lt_best] using h
            have hkr : rest.get ⟨k, hk⟩ < r := by simpa [lt_best] using h3
            simp [lt_best]
            exact lt_trans hkr hrb
        · intro m hm
          cases m with
          | zero =>
            show rest.get ⟨k, hk⟩ < r
            simpa [lt_best] using h3
          | succ m2 =>
            exact h4 m2 (Nat.lt_of_succ_lt_succ hm)
    · have hf : lt_best r best = false := by simpa using h
      have heq : tune_run i best b lg (r :: rest)
          = tune_run (i+1) best b lg rest := by
        simp [tune_run, h]
      have hbb : ∃ bb, best = some bb ∧ bb ≤ r := by
        cases best with
        | none => simp [lt_best] at hf
        | some bb => exact ⟨bb, rfl, by simpa [lt_best, not_lt] using hf⟩
      obtain ⟨bb, rfl, hbr⟩ := hbb
      rcases ih (i+1) (some bb) b lg with ⟨h1, h2⟩ | ⟨k, hk, h1, h2, h3, h4⟩
      · exact Or.inl ⟨by rw [heq, h1], by rw [heq, h2]⟩
      · refine Or.inr ⟨k + 1, Nat.succ_lt_succ hk, ?_, ?_, h3, ?_⟩
        · rw [heq, h1]
          exact congrArg some (by omega)
        · rw [heq, h2]
          rfl
        · intro m hm
          cases m with
          | zero =>
            show rest.get ⟨k, hk⟩ < r
            have hkb : rest.get ⟨k, hk⟩ < bb := by simpa [lt_best] using h3
            exact lt_of_lt_of_le hkb hbr
          | succ m2 =>
            exact h4 m2 (Nat.lt_of_succ_lt_succ hm)

lemma tune_run_logged_mem (rs : List ℚ) :
    ∀ (i : ℕ) (best : Option ℚ) (b : Option ℕ) (lg : List ℕ) (j : ℕ),
    j ∈ (tune_run i best b lg rs).2.2 ↔
      j ∈ lg ∨ ∃ k, ∃ hk : k < rs.length, j = i + k
        ∧ lt_best (rs.get ⟨k, hk⟩) (mergeMin best (run_min (rs.take k))) = true := by
  induction rs with
  | nil =>
    intro i best b lg j
    simp [tune_run]
  | cons r rest ih =>
    intro i best b lg j
    by_cases h : lt_best r best = true
    · have heq : tune_run i best b lg (r :: rest)
          = tune_run (i+1) (some r) (some i) (lg ++ [i]) rest := by
        simp [tune_run, h]
      rw [heq, ih]
      constructor
      · rintro (hjl | ⟨k, hk, hjk, hlt⟩)
        · rcases List.mem_append.mp hjl with hjl2 | hji
          · exact Or.inl hjl2
          · have hji2 : j = i := by simpa using hji
            refine Or.inr ⟨0, Nat.succ_pos _, by omega, ?_⟩
            show lt_best r (mergeMin best (run_min (List.take 0 (r :: rest)))) = true
            rw [List.take_zero]
            show lt_best r (mergeMin best none) = true
            rw [mergeMin_none_right]
            exact h
        · refine Or.inr ⟨k + 1, Nat.succ_lt_succ hk, by omega, ?_⟩
          show lt_best (rest.get ⟨k, hk⟩)
            (mergeMin best (run_min (List.take (k+1) (r :: rest)))) = true
          rw [List.take_succ_cons, mergeMin_cons, mergeMin_update_true best r h]
          exact hlt
      · rintro (hjl | ⟨k, hk, hjk, hlt⟩)
        · exact Or.inl (List.mem_append_left _ hjl)
        · cases k with
          | zero =>
            exact Or.inl (List.mem_append_right _ (by simp [hjk]))
          | succ k2 =>
            have hk2 : k2 < rest.length := Nat.lt_of_succ_lt_succ hk
            refine Or.inr ⟨k2, hk2, by omega, ?_⟩
            have hlt2 : lt_best (rest.get ⟨k2, hk2⟩)
                (mergeMin best (run_min (List.take (k2+1) (r :: rest)))) = true := hlt
            rw [List.take_succ_cons, mergeMin_cons, mergeMin_update_true best r h] at hlt2
            exact hlt2
    · have hf : lt_best r best = false := by simpa using h
      have heq : tune_run i best b lg (r :: rest)
          = tune_run (i+1) best b lg rest := by
        simp [tune_run, h]
      rw [heq, ih]
      constructor
      · rintro (hjl | ⟨k, hk, hjk, hlt⟩)
        · exact Or.inl hjl
        · refine Or.inr ⟨k + 1, Nat.succ_lt_succ hk, by omega, ?_⟩
          show lt_best (rest.get ⟨k, hk⟩)
            (mergeMin best (run_min (List.take (k+1) (r :: rest)))) = true
          rw [List.take_succ_cons, mergeMin_cons, mergeMin_update_false best r hf]
          exact hlt
      · rintro (hjl | ⟨k, hk, hjk, hlt⟩)
        · exact Or.inl hjl
        · cases k with
          | zero =>
            exfalso
            have hlt2 : lt_best r (mergeMin best (run_min (List.take 0 (r :: rest)))) = true := hlt
            rw [List.take_zero] at hlt2
            rw [show run_min ([] : List ℚ) = none from rfl, mergeMin_none_right] at hlt2
            exact h hlt2
          | succ k2 =>
            have hk2 : k2 < rest.length := Nat.lt_of_succ_lt_succ hk
            refine Or.inr ⟨k2, hk2, by omega, ?_⟩
            have hlt2 : lt_best (rest.get ⟨k2, hk2⟩)
                (mergeMin best (run_min (List.take (k2+1) (r :: rest)))) = true := hlt
            rw [List.take_succ_cons, mergeMin_cons, mergeMin_update_false best r hf] at hlt2
            exact hlt2

/-- C8: hyperparameter search enumerates exactly the full cartesian
product of the grid (in its fixed enumeration order); the reported best
configuration attains the lowest test RMSE and is the first to do so, so
a later tie never replaces it; and the model artifact is logged exactly
for the configurations whose RMSE is strictly below the best seen before
them. -/
theorem grid_search_spec (grid : List (List ℚ)) (rmse_of : List ℚ → ℚ)
    (rs : List ℚ) (hrs : rs = (product_lists grid).map rmse_of)
    (hne : rs ≠ []) :
    (∀ c, c ∈ product_lists grid ↔ List.Forall₂ (fun x xs => x ∈ xs) c grid)
    ∧ (∃ k, ∃ hk : k < rs.length,
        (tune_model grid rmse_of).2.1 = some k
        ∧ (∀ x ∈ rs, rs.get ⟨k, hk⟩ ≤ x)
        ∧ ∀ m, ∀ hm : m < k, rs.get ⟨k, hk⟩ < rs.get ⟨m, lt_trans hm hk⟩)
    ∧ (∀ j, j ∈ (tune_model grid rmse_of).2.2 ↔
        ∃ hj : j < rs.length,
          lt_best (rs.get ⟨j, hj⟩) (run_min (rs.take j)) = true) := by
  have htm : tune_model grid rmse_of = tune_run 0 none none [] rs := by
    rw [hrs]
    rfl
  refine ⟨fun c => mem_product_lists grid c, ?_, ?_⟩
  · rcases tune_run_best_idx rs 0 none none [] with ⟨h1, h2⟩ | ⟨k, hk, h1, h2, h3, h4⟩
    · exfalso
      have hv := tune_run_fst rs 0 none none []
      rw [h1] at hv
      have hrm : run_min rs = none := by
        have : mergeMin none (run_min rs) = run_min rs := rfl
        rw [this] at hv
        exact hv.symm
      rw [run_min_eq_none_iff] at hrm
      exact hne hrm
    · refine ⟨k, hk, ?_, ?_, h4⟩
      · rw [htm, h1]
        exact congrArg some (by omega)
      · intro x hx
        have hv := tune_run_fst rs 0 none none []
        rw [h2] at hv
        have hsome : run_min rs = some (rs.get ⟨k, hk⟩) := by
          have : mergeMin none (run_min rs) = run_min rs := rfl
          rw [this] at hv
          exact hv.symm
        exact run_min_le_mem rs x hx _ hsome
  · intro j
    rw [htm, tune_run_logged_mem]
    simp only [List.not_mem_nil, false_or]
    constructor
    · rintro ⟨k, hk, hjk, hlt⟩
      have hj : j = k := by omega
      subst hj
      refine ⟨hk, ?_⟩
      have : mergeMin none (run_min (rs.take j)) = run_min (rs.take j) := rfl
      rw [this] at hlt
      exact hlt
    · rintro ⟨hj, hlt⟩
      refine ⟨j, hj, by omega, ?_⟩
      have : mergeMin none (run_min (rs.take j)) = run_min (rs.take j) := rfl
      rw [this]
      exact hlt

theorem grid_search_spec_witness :
    (([3, 1, 1] : List ℚ) = (product_lists [[3, 1, 1]]).map (fun c => c.headD 0)
      ∧ ([3, 1, 1] : List ℚ) ≠ [])
    ∧ ∃ k, ∃ hk : k < ([3, 1, 1] : List ℚ).length,
        (tune_model [[3, 1, 1]] (fun c => c.headD 0)).2.1 = some k
        ∧ (∀ x ∈ ([3, 1, 1] : List ℚ), ([3, 1, 1] : List ℚ).get ⟨k, hk⟩ ≤ x)
        ∧ ∀ m, ∀ hm : m < k,
            ([3, 1, 1] : List ℚ).get ⟨k, hk⟩
              < ([3, 1, 1] : List ℚ).get ⟨m, lt_trans hm hk⟩ :=
  ⟨⟨by decide, by decide⟩,
   (grid_search_spec [[3, 1, 1]] (fun c => c.headD 0) [3, 1, 1]
      (by decide) (by decide)).2.1⟩
